import Mathlib

/-!
Verification of the multi-user label reconciliation core of Simplabel
(`simplabel/simplabel.py`).

Python dictionaries are modelled as insertion-ordered association lists
(`List (α × β)`): assignment `d[k] = v` replaces the value at the first
occurrence of `k` (keeping its position) or appends `(k, v)` at the end,
and lookup returns the value at the first occurrence of the key, exactly
as in CPython (keys of a real `dict` are unique, so first = only).
Files on disk are a mapping from filename to file data, where a pickle
file is either a valid store or corrupt; raising an exception is
modelled with `Except`.
-/

set_option autoImplicit false

namespace Simplabel

instance {ε α : Type} [DecidableEq ε] [DecidableEq α] : DecidableEq (Except ε α) := fun a b =>
  match a, b with
  | .error x, .error y =>
    if h : x = y then .isTrue (by rw [h])
    else .isFalse (fun hh => h (by injection hh))
  | .ok x, .ok y =>
    if h : x = y then .isTrue (by rw [h])
    else .isFalse (fun hh => h (by injection hh))
  | .error _, .ok _ => .isFalse (fun hh => Except.noConfusion hh)
  | .ok _, .error _ => .isFalse (fun hh => Except.noConfusion hh)

/-- Python `d[k]` / `k in d`: value at the first occurrence of key `k`. -/
def dictGet {α β : Type} [DecidableEq α] : List (α × β) → α → Option β
  | [], _ => none
  | (k, v) :: rest, k' => if k = k' then some v else dictGet rest k'

/-- Python `d[k] = v`: replace the value at the first occurrence of `k`
(keeping its position), or append `(k, v)` if `k` is absent. -/
def dictInsert {α β : Type} [DecidableEq α] (k : α) (v : β) : List (α × β) → List (α × β)
  | [] => [(k, v)]
  | (k', v') :: rest => if k' = k then (k, v) :: rest else (k', v') :: dictInsert k v rest

theorem dictGet_dictInsert {α β : Type} [DecidableEq α] (k k' : α) (v : β) (l : List (α × β)) :
    dictGet (dictInsert k v l) k' = if k = k' then some v else dictGet l k' := by
  induction l with
  | nil => simp [dictInsert, dictGet]
  | cons p rest ih =>
    obtain ⟨a, b⟩ := p
    by_cases hak : a = k
    · subst hak
      by_cases hkk : a = k' <;> simp [dictInsert, dictGet, hkk]
    · by_cases hak' : a = k'
      · subst hak'
        have : ¬ k = a := fun h => hak h.symm
        simp [dictInsert, dictGet, hak, this]
      · simp [dictInsert, dictGet, hak, hak', ih]

theorem dictGet_dictInsert_self {α β : Type} [DecidableEq α] (k : α) (v : β) (l : List (α × β)) :
    dictGet (dictInsert k v l) k = some v := by
  simp [dictGet_dictInsert]

theorem dictGet_dictInsert_ne {α β : Type} [DecidableEq α] {k k' : α} (v : β) (l : List (α × β))
    (h : k ≠ k') : dictGet (dictInsert k v l) k' = dictGet l k' := by
  simp [dictGet_dictInsert, h]

theorem dictGet_append {α β : Type} [DecidableEq α] (l₁ l₂ : List (α × β)) (k : α) :
    dictGet (l₁ ++ l₂) k = ((dictGet l₁ k).rec (dictGet l₂ k) (fun v => some v)) := by
  induction l₁ with
  | nil => simp [dictGet]
  | cons p rest ih =>
    obtain ⟨a, b⟩ := p
    by_cases hak : a = k <;> simp [dictGet, hak, ih]

theorem dictGet_mem {α β : Type} [DecidableEq α] {l : List (α × β)} {k : α} {v : β}
    (h : dictGet l k = some v) : (k, v) ∈ l := by
  induction l with
  | nil => simp [dictGet] at h
  | cons p rest ih =>
    obtain ⟨a, b⟩ := p
    by_cases hak : a = k
    · subst hak
      simp [dictGet] at h
      simp [h]
    · simp [dictGet, hak] at h
      exact List.mem_cons_of_mem _ (ih h)

theorem mem_dictGet_isSome {α β : Type} [DecidableEq α] {l : List (α × β)} {k : α} {v : β}
    (h : (k, v) ∈ l) : (dictGet l k).isSome := by
  induction l with
  | nil => simp at h
  | cons p rest ih =>
    obtain ⟨a, b⟩ := p
    by_cases hak : a = k
    · simp [dictGet, hak]
    · rcases List.mem_cons.mp h with h1 | h2
      · exact absurd (congrArg Prod.fst h1).symm hak
      · simpa [dictGet, hak] using ih h2

theorem dictGet_eq_none_of_not_mem {α β : Type} [DecidableEq α] {l : List (α × β)} {k : α}
    (h : k ∉ l.map Prod.fst) : dictGet l k = none := by
  induction l with
  | nil => rfl
  | cons p rest ih =>
    obtain ⟨a, b⟩ := p
    simp only [List.map_cons, List.mem_cons, not_or] at h
    have hak : ¬ a = k := fun hh => h.1 hh.symm
    simp [dictGet, hak, ih h.2]

theorem dictInsert_mem {α β : Type} [DecidableEq α] {k : α} {v : β} {l : List (α × β)} {q : α × β}
    (h : q ∈ dictInsert k v l) : q = (k, v) ∨ q ∈ l := by
  induction l with
  | nil => simpa [dictInsert] using h
  | cons p rest ih =>
    obtain ⟨a, b⟩ := p
    by_cases hak : a = k
    · simp [dictInsert, hak] at h
      rcases h with h | h
      · exact Or.inl h
      · exact Or.inr (List.mem_cons_of_mem _ h)
    · simp [dictInsert, hak] at h
      rcases h with h | h
      · exact Or.inr (by simp [h])
      · rcases ih h with h1 | h2
        · exact Or.inl h1
        · exact Or.inr (List.mem_cons_of_mem _ h2)

theorem dictInsert_ne_nil {α β : Type} [DecidableEq α] (k : α) (v : β) (l : List (α × β)) :
    dictInsert k v l ≠ [] := by
  cases l with
  | nil => simp [dictInsert]
  | cons p rest =>
    obtain ⟨a, b⟩ := p
    by_cases hak : a = k <;> simp [dictInsert, hak]

theorem map_fst_dictInsert_mem {α β : Type} [DecidableEq α] {k : α} (v : β) {l : List (α × β)}
    (h : k ∈ l.map Prod.fst) : (dictInsert k v l).map Prod.fst = l.map Prod.fst := by
  induction l with
  | nil => simp at h
  | cons p rest ih =>
    obtain ⟨a, b⟩ := p
    by_cases hak : a = k
    · simp [dictInsert, hak]
    · simp only [List.map_cons, List.mem_cons] at h
      rcases h with h | h
      · exact absurd h.symm hak
      · simp [dictInsert, hak, ih h]

theorem map_fst_dictInsert_not_mem {α β : Type} [DecidableEq α] {k : α} (v : β) {l : List (α × β)}
    (h : k ∉ l.map Prod.fst) : (dictInsert k v l).map Prod.fst = l.map Prod.fst ++ [k] := by
  induction l with
  | nil => simp [dictInsert]
  | cons p rest ih =>
    obtain ⟨a, b⟩ := p
    simp only [List.map_cons, List.mem_cons, not_or] at h
    have hak : ¬ a = k := fun hh => h.1 hh.symm
    simp [dictInsert, hak, ih h.2]

theorem mem_map_fst_dictInsert {α β : Type} [DecidableEq α] (k : α) (v : β) (l : List (α × β)) :
    k ∈ (dictInsert k v l).map Prod.fst := by
  induction l with
  | nil => simp [dictInsert]
  | cons p rest ih =>
    obtain ⟨a, b⟩ := p
    by_cases hak : a = k <;> simp [dictInsert, hak, ih]

/-! ### String helpers

Python string operations used by the code (`startswith`, `endswith`,
`in` for substring containment, `split` on a one-character separator)
are modelled on the character lists underlying `String`. -/

/-- Python `l.startswith(pat)` on character lists. -/
def startsWithL : List Char → List Char → Bool
  | _, [] => true
  | [], _ :: _ => false
  | x :: xs, y :: ys => x = y && startsWithL xs ys

/-- Python `pat in l` (substring containment) on character lists. -/
def containsL : List Char → List Char → Bool
  | [], pat => pat.isEmpty
  | x :: xs, pat => startsWithL (x :: xs) pat || containsL xs pat

/-- Python `l.endswith(pat)` on character lists. -/
def endsWithL (l pat : List Char) : Bool := startsWithL l.reverse pat.reverse

/-- Python `s.split(c)` for a one-character separator: the maximal runs
between occurrences of `c`, with empty runs kept. -/
def splitOnChar (c : Char) : List Char → List (List Char)
  | [] => [[]]
  | x :: xs =>
    if x = c then [] :: splitOnChar c xs
    else
      match splitOnChar c xs with
      | [] => [[x]]
      | h :: t => (x :: h) :: t

/-- The list `p` occurs as a contiguous segment of `l`. -/
def SubSeg (p l : List Char) : Prop := ∃ s t, s ++ (p ++ t) = l

theorem subSeg_trans {q p l : List Char} (h1 : SubSeg q p) (h2 : SubSeg p l) : SubSeg q l := by
  obtain ⟨s1, t1, e1⟩ := h1
  obtain ⟨s2, t2, e2⟩ := h2
  exact ⟨s2 ++ s1, t1 ++ t2, by rw [← e2, ← e1]; simp⟩

theorem subSeg_cons {p l : List Char} (x : Char) (h : SubSeg p l) : SubSeg p (x :: l) := by
  obtain ⟨s, t, e⟩ := h
  exact ⟨x :: s, t, by simp [e]⟩

theorem startsWithL_append (pat t : List Char) : startsWithL (pat ++ t) pat = true := by
  induction pat with
  | nil => cases t <;> simp [startsWithL]
  | cons y ys ih => simp [startsWithL, ih]

theorem containsL_of_startsWithL {l pat : List Char} (h : startsWithL l pat = true) :
    containsL l pat = true := by
  cases l with
  | nil =>
    cases pat with
    | nil => rfl
    | cons y ys => simp [startsWithL] at h
  | cons x xs => simp [containsL, h]

theorem subSeg_containsL {pat l : List Char} (h : SubSeg pat l) : containsL l pat = true := by
  obtain ⟨s, t, e⟩ := h
  subst e
  induction s with
  | nil => exact containsL_of_startsWithL (startsWithL_append pat t)
  | cons a s' ih => simp [containsL, ih]

theorem splitOnChar_shape (c : Char) (l : List Char) :
    ∃ h t, splitOnChar c l = h :: t ∧ (∃ t2, h ++ t2 = l) ∧ ∀ p ∈ t, SubSeg p l := by
  induction l with
  | nil => exact ⟨[], [], rfl, ⟨[], rfl⟩, by simp⟩
  | cons x xs ih =>
    obtain ⟨h, t, heq, ⟨t2, hh⟩, ht⟩ := ih
    by_cases hx : x = c
    · refine ⟨[], h :: t, by simp [splitOnChar, hx, heq], ⟨x :: xs, rfl⟩, ?_⟩
      intro p hp
      rcases List.mem_cons.mp hp with rfl | hp
      · exact ⟨[x], t2, by simp [hh]⟩
      · exact subSeg_cons x (ht p hp)
    · refine ⟨x :: h, t, by simp [splitOnChar, hx, heq], ⟨t2, by simp [hh]⟩, ?_⟩
      intro p hp
      exact subSeg_cons x (ht p hp)

theorem splitOnChar_subSeg {c : Char} {l : List Char} {p : List Char}
    (hp : p ∈ splitOnChar c l) : SubSeg p l := by
  obtain ⟨h, t, heq, ⟨t2, hh⟩, ht⟩ := splitOnChar_shape c l
  rw [heq] at hp
  rcases List.mem_cons.mp hp with rfl | hp
  · exact ⟨[], t2, by simp [hh]⟩
  · exact ht p hp

/-! ### Filenames, usernames and user detection -/

/-- The per-user save file, `self.folder + "/labeled_" + user + ".pkl"`
(the directory part is dropped: all paths are relative to the shared
directory). -/
def userFileName (u : String) : String := "labeled_" ++ u ++ ".pkl"

/-- The fixed master file, `self.folder + '/labeled_master.pkl'`. -/
def masterFileName : String := "labeled_master.pkl"

theorem userFileName_inj {u v : String} (h : userFileName u = userFileName v) : u = v := by
  have hd := congrArg String.data h
  simp only [userFileName, String.data_append] at hd
  have h1 := List.append_cancel_right hd
  have h2 := List.append_cancel_left h1
  cases u; cases v
  exact congrArg String.mk h2

theorem userFileName_eq_master_iff (u : String) :
    userFileName u = masterFileName ↔ u = "master" := by
  constructor
  · intro h
    exact userFileName_inj (u := u) (v := "master") h
  · intro h
    subst h
    rfl

/-- The filename test in `get_all_users`:
`f.endswith('.pkl') and f.startswith('labeled_') and 'master' not in f`. -/
def fileFilter (f : String) : Bool :=
  endsWithL f.data ".pkl".data && startsWithL f.data "labeled_".data &&
    !(containsL f.data "master".data)

/-- The username embedded in a `labeled_<user>.pkl` filename,
`f.split('_')[1].split('.')[0]` (out-of-range indices are modelled by
the empty default, which is unreachable for names passing
`fileFilter`). -/
def extractUser (f : String) : String :=
  String.mk ((splitOnChar '.' ((splitOnChar '_' f.data).getD 1 [])).getD 0 [])

/-- Model of `ImageClassifier.get_all_users`: usernames extracted from the
`labeled_*.pkl` files of the directory listing, master excluded. -/
def get_all_users (files : List String) : List String :=
  (files.filter fileFilter).map extractUser

theorem getD_mem_or_default {α : Type} (l : List α) (n : Nat) (d : α) :
    l.getD n d ∈ l ∨ l.getD n d = d := by
  by_cases h : n < l.length
  · rw [List.getD_eq_getElem l d h]
    exact Or.inl (l.getElem_mem h)
  · right
    rw [List.getD_eq_default l d (Nat.le_of_not_lt h)]

/-- No directory listing ever yields the reserved username: every file
whose name mentions `master` is filtered out, and any username extracted
from a surviving filename is a contiguous segment of that filename. -/
theorem master_not_in_get_all_users (files : List String) :
    "master" ∉ get_all_users files := by
  intro hmem
  obtain ⟨f, hf, hext⟩ := List.mem_map.mp hmem
  have hfilt : fileFilter f = true := (List.mem_filter.mp hf).2
  have hnotc : containsL f.data "master".data = false := by
    simp only [fileFilter, Bool.and_eq_true, Bool.not_eq_true'] at hfilt
    exact hfilt.2
  have hdata : (splitOnChar '.' ((splitOnChar '_' f.data).getD 1 [])).getD 0 []
      = "master".data := by
    have := congrArg String.data hext
    simpa [extractUser] using this
  have hsub : SubSeg ("master".data) f.data := by
    rcases getD_mem_or_default (splitOnChar '_' f.data) 1 [] with hc1 | hc1
    · rcases getD_mem_or_default (splitOnChar '.' ((splitOnChar '_' f.data).getD 1 [])) 0 []
        with hc2 | hc2
      · have hsub2 := splitOnChar_subSeg hc2
        rw [hdata] at hsub2
        exact subSeg_trans hsub2 (splitOnChar_subSeg hc1)
      · rw [hc2] at hdata
        exact absurd hdata (by decide)
    · rw [hc1] at hdata
      exact absurd hdata (by decide)
  rw [subSeg_containsL hsub] at hnotc
  exact absurd hnotc (by decide)

/-- Adding to the listing a file rejected by the filename test (for
example `labeled_master.pkl`) does not change the detected users. -/
theorem get_all_users_append_filtered {f : String} (files : List String)
    (h : fileFilter f = false) : get_all_users (files ++ [f]) = get_all_users files := by
  simp [get_all_users, List.filter_append, h]

theorem fileFilter_masterFileName : fileFilter masterFileName = false := by decide

/-! ### Sanitization -/

/-- Model of `ImageClassifier.sanitize_user_name`:
`''.join(rawString.strip().lower().split())`.  `str.split()` with no
argument splits on whitespace runs and discards the separators, so
joining the pieces with `''` keeps exactly the non-whitespace characters
in order (which also makes the leading `strip` redundant); the whole
operation is modelled as lowercasing followed by a whitespace filter. -/
def sanitize_user_name (s : String) : String :=
  String.mk ((s.data.map Char.toLower).filter (fun c => !c.isWhitespace))

/-- The list `l` with leading and trailing whitespace removed (Python `strip`). -/
def trimL (l : List Char) : List Char :=
  ((l.dropWhile Char.isWhitespace).reverse.dropWhile Char.isWhitespace).reverse

/-- Model of `ImageClassifier.sanitize_label_name`:
`rawString.strip().lower().capitalize()` (after `lower`, `capitalize`
upper-cases the first character; the rest is already lower-case). -/
def sanitize_label_name (s : String) : String :=
  match (trimL s.data).map Char.toLower with
  | [] => String.mk []
  | c :: rest => String.mk (c.toUpper :: rest)

/-! ### Label stores and the aggregated view -/

/-- A user's label store (`self.labeled`): image identifier → category. -/
abbrev Store := List (String × String)

/-- The aggregated view `self.allLabeledDict : {picName: {user: label}}`. -/
abbrev AggView := List (String × List (String × String))

/-- One insertion step of `update_all_dict`:
`if imageName in all: all[imageName][user] = label else: all[imageName] = {user: label}`. -/
def aggInsert (img user lab : String) : AggView → AggView
  | [] => [(img, [(user, lab)])]
  | (i, inner) :: rest =>
    if i = img then (i, dictInsert user lab inner) :: rest
    else (i, inner) :: aggInsert img user lab rest

/-- Fold one user's whole store into the view, in store order
(`for (imageName, label) in userDict.items()`). -/
def aggInsertStore (user : String) : Store → AggView → AggView
  | [], acc => acc
  | (img, lab) :: rest, acc => aggInsertStore user rest (aggInsert img user lab acc)

/-- The `for user in self.users` loop of `update_all_dict`: the current
user's in-memory store is folded in for `username`, every other user's
store is read from disk through `loadStore`. -/
def update_all_dict_go (username : String) (labeled : Store) (loadStore : String → Store) :
    List String → AggView → AggView
  | [], acc => acc
  | user :: rest, acc =>
    update_all_dict_go username labeled loadStore rest
      (aggInsertStore user (if user = username then labeled else loadStore user) acc)

/-- Model of `ImageClassifier.update_all_dict`: rebuilds `allLabeledDict` from
scratch; in redundant mode other users' labels are hidden and the view
stays empty. -/
def update_all_dict (redundantMode : Bool) (users : List String) (username : String)
    (labeled : Store) (loadStore : String → Store) : AggView :=
  if redundantMode then []
  else update_all_dict_go username labeled loadStore users []

/-- Invariant over the entries of a view: every image's entry is
nonempty and every inner `(user, label)` pair satisfies `P`. -/
def ViewInv (P : String → String × String → Prop) (view : AggView) : Prop :=
  ∀ p ∈ view, p.2 ≠ [] ∧ ∀ q ∈ p.2, P p.1 q

theorem aggInsert_inv {P : String → String × String → Prop} {img user lab : String}
    {acc : AggView} (hacc : ViewInv P acc) (hnew : P img (user, lab)) :
    ViewInv P (aggInsert img user lab acc) := by
  induction acc with
  | nil =>
    intro p hp
    simp [aggInsert] at hp
    subst hp
    exact ⟨by simp, by intro q hq; simp at hq; subst hq; exact hnew⟩
  | cons hd rest ih =>
    obtain ⟨i, inner⟩ := hd
    have hhd := hacc (i, inner) (List.mem_cons_self _ _)
    have hrest : ViewInv P rest := fun p hp => hacc p (List.mem_cons_of_mem _ hp)
    by_cases hi : i = img
    · subst hi
      intro p hp
      simp only [aggInsert, if_pos rfl] at hp
      rcases List.mem_cons.mp hp with rfl | hp
      · refine ⟨dictInsert_ne_nil _ _ _, ?_⟩
        intro q hq
        rcases dictInsert_mem hq with rfl | hq
        · exact hnew
        · exact hhd.2 q hq
      · exact hrest p hp
    · intro p hp
      simp only [aggInsert, if_neg hi] at hp
      rcases List.mem_cons.mp hp with rfl | hp
      · exact hhd
      · exact ih hrest p hp

theorem aggInsertStore_inv {P : String → String × String → Prop} {user : String}
    {store : Store} {acc : AggView} (hacc : ViewInv P acc)
    (hstore : ∀ il ∈ store, P il.1 (user, il.2)) :
    ViewInv P (aggInsertStore user store acc) := by
  induction store generalizing acc with
  | nil => exact hacc
  | cons hd rest ih =>
    obtain ⟨img, lab⟩ := hd
    exact ih (aggInsert_inv hacc (hstore (img, lab) (List.mem_cons_self _ _)))
      (fun il hil => hstore il (List.mem_cons_of_mem _ hil))

theorem update_all_dict_go_inv {username : String} {labeled : Store}
    {loadStore : String → Store} {S : List String} :
    ∀ (users : List String) (acc : AggView), (∀ u ∈ users, u ∈ S) →
    ViewInv (fun img q => q.1 ∈ S ∧ (q.1 = username → (img, q.2) ∈ labeled)) acc →
    ViewInv (fun img q => q.1 ∈ S ∧ (q.1 = username → (img, q.2) ∈ labeled))
      (update_all_dict_go username labeled loadStore users acc) := by
  intro users
  induction users with
  | nil => intro acc _ hacc; exact hacc
  | cons user rest ih =>
    intro acc hsub hacc
    refine ih _ (fun u hu => hsub u (List.mem_cons_of_mem _ hu)) ?_
    refine aggInsertStore_inv hacc ?_
    intro il hil
    refine ⟨hsub user (List.mem_cons_self _ _), ?_⟩
    intro huser
    by_cases hcur : user = username
    · rw [if_pos hcur] at hil
      exact hil
    · exact absurd huser hcur

theorem update_all_dict_inv (redundantMode : Bool) (users : List String) (username : String)
    (labeled : Store) (loadStore : String → Store) :
    ViewInv (fun img q => q.1 ∈ users ∧ (q.1 = username → (img, q.2) ∈ labeled))
      (update_all_dict redundantMode users username labeled loadStore) := by
  unfold update_all_dict
  by_cases hr : redundantMode
  · simp [hr, ViewInv]
  · simp only [if_neg hr]
    exact update_all_dict_go_inv users [] (fun u hu => hu) (by intro p hp; simp at hp)

theorem update_all_dict_entry_ne {redundantMode : Bool} {users : List String}
    {username : String} {labeled : Store} {loadStore : String → Store} {img : String}
    {entry : List (String × String)}
    (h : dictGet (update_all_dict redundantMode users username labeled loadStore) img
      = some entry) : entry ≠ [] :=
  (update_all_dict_inv redundantMode users username labeled loadStore _ (dictGet_mem h)).1

theorem update_all_dict_inner {redundantMode : Bool} {users : List String}
    {username : String} {labeled : Store} {loadStore : String → Store} {img : String}
    {entry : List (String × String)} {q : String × String}
    (h : dictGet (update_all_dict redundantMode users username labeled loadStore) img
      = some entry) (hq : q ∈ entry) :
    q.1 ∈ users ∧ (q.1 = username → (img, q.2) ∈ labeled) :=
  (update_all_dict_inv redundantMode users username labeled loadStore _ (dictGet_mem h)).2 q hq

theorem update_all_dict_go_congr {username : String} {labeled : Store}
    {ls1 ls2 : String → Store} :
    ∀ (users : List String) (acc : AggView),
    (∀ u ∈ users, u ≠ username → ls1 u = ls2 u) →
    update_all_dict_go username labeled ls1 users acc
      = update_all_dict_go username labeled ls2 users acc := by
  intro users
  induction users with
  | nil => intro acc _; rfl
  | cons user rest ih =>
    intro acc h
    simp only [update_all_dict_go]
    have hstore : (if user = username then labeled else ls1 user)
        = (if user = username then labeled else ls2 user) := by
      by_cases hcur : user = username
      · simp [hcur]
      · simp [hcur, h user (List.mem_cons_self _ _) hcur]
    rw [hstore]
    exact ih _ (fun u hu hne => h u (List.mem_cons_of_mem _ hu) hne)

/-! ### Conflict classification (`sort_conflicting_imgs`) -/

/-- The inner comparison loop of `sort_conflicting_imgs`.  `sel` models
`selectedLabel`; Python's `if not selectedLabel:` is true for `None`
and also for the empty string, in which case the current label is
adopted without any comparison; otherwise a differing label means
disagreement (`break` after appending once).  Returns whether the
image is appended to `labeledDisagreed`. -/
def scanDisagree (sel : Option String) : List (String × String) → Bool
  | [] => false
  | (_, lab) :: rest =>
    match sel with
    | none => scanDisagree (some lab) rest
    | some s =>
      if s = "" then scanDisagree (some lab) rest
      else if lab ≠ s then true
      else scanDisagree (some s) rest

/-- The loop of `ImageClassifier.sort_conflicting_imgs` with its three
accumulating sublists.  An image present in the view: entry of length
one goes to `labeledAgreed`; entry of length two or more goes to
`labeledDisagreed` when the scan breaks, otherwise to `labeledAgreed`
unless it already sits in `labeledDisagreed` (the `img not in
labeledDisagreed` test); an image absent from the view goes to
`toLabel`.  An entry of length zero falls through every branch. -/
def sort_conflicting_go (view : AggView) (agreed disagreed toLabel : List String) :
    List String → List String × List String × List String
  | [] => (agreed, disagreed, toLabel)
  | img :: rest =>
    match dictGet view img with
    | some labelList =>
      if labelList.length = 1 then
        sort_conflicting_go view (agreed ++ [img]) disagreed toLabel rest
      else if 1 < labelList.length then
        if scanDisagree none labelList then
          sort_conflicting_go view agreed (disagreed ++ [img]) toLabel rest
        else if img ∈ disagreed then
          sort_conflicting_go view agreed disagreed toLabel rest
        else
          sort_conflicting_go view (agreed ++ [img]) disagreed toLabel rest
      else
        sort_conflicting_go view agreed disagreed toLabel rest
    | none => sort_conflicting_go view agreed disagreed (toLabel ++ [img]) rest

/-- Model of `ImageClassifier.sort_conflicting_imgs`: returns
`(labeledAgreed, labeledDisagreed, toLabel)` for the images of
`image_list` against the (freshly rebuilt) aggregated view. -/
def sort_conflicting_imgs (image_list : List String) (view : AggView) :
    List String × List String × List String :=
  sort_conflicting_go view [] [] [] image_list

/-- The category values recorded for `img` in the view (empty when the
image is absent). -/
def valsOf (view : AggView) (img : String) : List String :=
  ((dictGet view img).getD []).map Prod.snd

/-- The list holds two or more distinct values. -/
def hasDistinctB (vals : List String) : Bool :=
  vals.any (fun a => vals.any (fun b => a != b))

/-- Spec-side predicate: the image's entry has two or more distinct
category values. -/
def isDisagreedB (view : AggView) (img : String) : Bool :=
  hasDistinctB (valsOf view img)

/-- Spec-side predicate: the image has one or more entries, all equal. -/
def isAgreedB (view : AggView) (img : String) : Bool :=
  !(valsOf view img).isEmpty && !hasDistinctB (valsOf view img)

/-- Spec-side predicate: the image has zero entries. -/
def isUnlabeledB (view : AggView) (img : String) : Bool :=
  (valsOf view img).isEmpty

theorem scanDisagree_some {s : String} (hs : s ≠ "") :
    ∀ entry : List (String × String),
    scanDisagree (some s) entry = entry.any (fun q => q.2 != s) := by
  intro entry
  induction entry with
  | nil => simp [scanDisagree]
  | cons q rest ih =>
    obtain ⟨u, lab⟩ := q
    by_cases hlab : lab = s
    · subst hlab
      simp [scanDisagree, hs, ih]
    · simp [scanDisagree, hs, hlab]

theorem any_ne_head_eq_hasDistinct (v : String) (vs : List String) :
    vs.any (fun b => b != v) = hasDistinctB (v :: vs) := by
  apply Bool.eq_iff_iff.mpr
  simp only [hasDistinctB, List.any_eq_true, bne_iff_ne, ne_eq]
  constructor
  · rintro ⟨b, hb, hbv⟩
    exact ⟨v, by simp, b, List.mem_cons_of_mem _ hb, fun h => hbv h.symm⟩
  · rintro ⟨a, ha, b, hb, hab⟩
    by_contra hall
    push_neg at hall
    have hv : ∀ x ∈ v :: vs, x = v := by
      intro x hx
      rcases List.mem_cons.mp hx with rfl | hx
      · rfl
      · exact hall x hx
    exact hab ((hv a ha).trans (hv b hb).symm)

theorem any_snd_ne_eq_any_map (v : String) (l : List (String × String)) :
    l.any (fun q => q.2 != v) = (l.map Prod.snd).any (fun b => b != v) := by
  induction l with
  | nil => rfl
  | cons p ps ih => simp [ih]

theorem scanDisagree_spec (entry : List (String × String))
    (hvals : ∀ q ∈ entry, q.2 ≠ "") :
    scanDisagree none entry = hasDistinctB (entry.map Prod.snd) := by
  cases entry with
  | nil => rfl
  | cons q rest =>
    obtain ⟨u, v⟩ := q
    have hv : v ≠ "" := hvals (u, v) (by simp)
    have h1 : scanDisagree none ((u, v) :: rest) = scanDisagree (some v) rest := rfl
    rw [h1, scanDisagree_some hv rest]
    rw [any_snd_ne_eq_any_map v rest, any_ne_head_eq_hasDistinct]
    simp

theorem sort_go_spec (view : AggView)
    (hne : ∀ p ∈ view, p.2 ≠ ([] : List (String × String)))
    (hval : ∀ p ∈ view, ∀ q ∈ p.2, q.2 ≠ "") :
    ∀ (ids agreed disagreed toLabel : List String),
    (∀ i ∈ disagreed, isDisagreedB view i = true) →
    sort_conflicting_go view agreed disagreed toLabel ids =
      (agreed ++ ids.filter (isAgreedB view),
       disagreed ++ ids.filter (isDisagreedB view),
       toLabel ++ ids.filter (isUnlabeledB view)) := by
  intro ids
  induction ids with
  | nil =>
    intro a d t _
    simp only [sort_conflicting_go, List.filter_nil, List.append_nil]
  | cons img rest ih =>
    intro a d t hd
    cases hview : dictGet view img with
    | none =>
      have hvals : valsOf view img = [] := by simp [valsOf, hview]
      have hA : isAgreedB view img = false := by simp [isAgreedB, hvals]
      have hD : isDisagreedB view img = false := by
        simp [isDisagreedB, hvals, hasDistinctB]
      have hU : isUnlabeledB view img = true := by simp [isUnlabeledB, hvals]
      simp only [sort_conflicting_go, hview]
      rw [ih _ _ _ hd]
      simp [List.filter_cons, hA, hD, hU]
    | some entry =>
      have hmem := dictGet_mem hview
      have hene : entry ≠ [] := hne _ hmem
      have hq : ∀ q ∈ entry, q.2 ≠ "" := hval _ hmem
      have hvals : valsOf view img = entry.map Prod.snd := by simp [valsOf, hview]
      match entry, hene with
      | [q0], _ =>
        have hA : isAgreedB view img = true := by
          simp [isAgreedB, hvals, hasDistinctB]
        have hD : isDisagreedB view img = false := by
          simp [isDisagreedB, hvals, hasDistinctB]
        have hU : isUnlabeledB view img = false := by simp [isUnlabeledB, hvals]
        have hstep : sort_conflicting_go view a d t (img :: rest)
            = sort_conflicting_go view (a ++ [img]) d t rest := by
          simp [sort_conflicting_go, hview]
        rw [hstep, ih _ _ _ hd]
        simp [List.filter_cons, hA, hD, hU]
      | q0 :: q1 :: e2, _ =>
        have hc1 : ¬ ((q0 :: q1 :: e2).length = 1) := by
          simp only [List.length_cons]
          omega
        have hc2 : 1 < (q0 :: q1 :: e2).length := by
          simp only [List.length_cons]
          omega
        have hscan : scanDisagree none (q0 :: q1 :: e2)
            = isDisagreedB view img := by
          rw [scanDisagree_spec _ hq, isDisagreedB, hvals]
        have hU : isUnlabeledB view img = false := by simp [isUnlabeledB, hvals]
        cases hDval : isDisagreedB view img with
        | true =>
          have hA : isAgreedB view img = false := by
            have hdist : hasDistinctB (valsOf view img) = true := by
              rwa [isDisagreedB] at hDval
            rw [isAgreedB, hdist]
            simp
          have hstep : sort_conflicting_go view a d t (img :: rest)
              = sort_conflicting_go view a (d ++ [img]) t rest := by
            simp only [sort_conflicting_go, hview]
            rw [if_neg hc1, if_pos hc2, hscan, hDval]
            simp
          have hd' : ∀ i ∈ d ++ [img], isDisagreedB view i = true := by
            intro i hi
            rcases List.mem_append.mp hi with hi | hi
            · exact hd i hi
            · simp at hi; subst hi; exact hDval
          rw [hstep, ih _ _ _ hd']
          simp [List.filter_cons, hA, hDval, hU]
        | false =>
          have hA : isAgreedB view img = true := by
            have hdist : hasDistinctB (valsOf view img) = false := by
              rwa [isDisagreedB] at hDval
            rw [isAgreedB, hdist, hvals]
            simp
          have hnotin : img ∉ d := by
            intro hin
            rw [hd img hin] at hDval
            exact absurd hDval (by simp)
          have hstep : sort_conflicting_go view a d t (img :: rest)
              = sort_conflicting_go view (a ++ [img]) d t rest := by
            simp only [sort_conflicting_go, hview]
            rw [if_neg hc1, if_pos hc2, hscan, hDval]
            simp [hnotin]
          rw [hstep, ih _ _ _ hd]
          simp [List.filter_cons, hA, hDval, hU]

/-! ### Master promotion -/

/-- Reasons for `make_master` not to produce a master store. -/
inductive MMErr
  | needsReconciliation
  | declined
  | stopIteration
  | loadError
deriving DecidableEq, Repr

/-- The master-building loop of `make_master`:
`masterDict[img] = next(iter(self.allLabeledDict[img].values()))`, the
first (insertion-order) value of every entry; `none` when some entry is
empty, since `next` on an empty iterator raises `StopIteration`. -/
def masterOfView : AggView → Option Store
  | [] => some []
  | (img, entry) :: rest =>
    match entry with
    | [] => none
    | (_, v) :: _ => (masterOfView rest).map (fun m => (img, v) :: m)

/-- Model of `ImageClassifier.make_master` after its initial save and refresh:
classify the image list, abort with a reconciliation warning on any
disagreement, ask about remaining unlabeled images (`confirm = false`
models answering `'no'`), otherwise build the master dictionary. -/
def make_master_core (image_list : List String) (view : AggView) (confirm : Bool) :
    Except MMErr Store :=
  let r := sort_conflicting_imgs image_list view
  if !r.2.1.isEmpty then .error .needsReconciliation
  else if !r.2.2.isEmpty && !confirm then .error .declined
  else
    match masterOfView view with
    | some m => .ok m
    | none => .error .stopIteration

theorem masterOfView_spec (view : AggView) (hne : ∀ p ∈ view, p.2 ≠ []) :
    ∃ m, masterOfView view = some m ∧
      ∀ img entry, dictGet view img = some entry →
        ∃ v, dictGet m img = some v ∧ v ∈ entry.map Prod.snd := by
  induction view with
  | nil => exact ⟨[], rfl, by intro img entry h; simp [dictGet] at h⟩
  | cons p rest ih =>
    obtain ⟨img0, entry0⟩ := p
    have h0 : entry0 ≠ [] := hne (img0, entry0) (List.mem_cons_self _ _)
    obtain ⟨m', hm', hspec⟩ := ih (fun p hp => hne p (List.mem_cons_of_mem _ hp))
    match entry0, h0 with
    | (u0, v0) :: e0, _ =>
      refine ⟨(img0, v0) :: m', by simp [masterOfView, hm'], ?_⟩
      intro img entry h
      by_cases himg : img0 = img
      · subst himg
        simp [dictGet] at h
        subst h
        exact ⟨v0, by simp [dictGet], by simp⟩
      · simp only [dictGet, if_neg himg] at h
        obtain ⟨v, hv, hvm⟩ := hspec img entry h
        exact ⟨v, by simp [dictGet, himg, hv], hvm⟩

/-! ### On-disk state and the pickle codec -/

/-- Contents of a file in the shared directory: a valid pickled store,
or a file that is present but cannot be unpickled. -/
inductive FileData
  | valid (s : Store)
  | corrupt
deriving DecidableEq, Repr

/-- The shared directory: filename → file contents. -/
abbrev FS := List (String × FileData)

/-- How a load can fail: `open` raises on a missing file,
`pickle.load` raises on a corrupt one. -/
inductive LoadErr
  | fileNotFound
  | unpicklingError
deriving DecidableEq, Repr

/-- Model of `ImageClassifier.load_dict`: `open(file, "rb")` then `pickle.load`,
with no existence check of its own. -/
def load_dict (fs : FS) (file : String) : Except LoadErr Store :=
  match dictGet fs file with
  | none => .error .fileNotFound
  | some .corrupt => .error .unpicklingError
  | some (.valid s) => .ok s

/-- The guarded load of the current user's store in
`ImageClassifier.initialize_data`: `if os.path.isfile(self.savepath):
self.labeled = self.load_dict(self.savepath) else: self.labeled = {}`. -/
def initialize_data_load (fs : FS) (savepath : String) : Except LoadErr Store :=
  if (dictGet fs savepath).isSome then load_dict fs savepath else .ok []

/-! ### Reconcile-mode save -/

/-- The loading loop of the reconcile-mode `save`:
`for user in self.users: userDicts[user] = self.load_dict(...)`;
a failing load aborts the whole save. -/
def loadAll (fs : FS) : List String → Except LoadErr (List (String × Store))
  | [] => .ok []
  | u :: rest => do
    let d ← load_dict fs (userFileName u)
    let r ← loadAll fs rest
    pure ((u, d) :: r)

/-- The update loop of the reconcile-mode `save`, projected onto one
user's dictionary: `for img in self.reconciledLabelsDict:
userDict[img] = self.reconciledLabelsDict[img]`. -/
def applyRecon : Store → Store → Store
  | [], d => d
  | (img, cat) :: rest, d => applyRecon rest (dictInsert img cat d)

/-- The dump loop of the reconcile-mode `save`: write each user's
updated dictionary back to that user's file. -/
def writeAll : List (String × Store) → FS → FS
  | [], fs => fs
  | (u, d) :: rest, fs => writeAll rest (dictInsert (userFileName u) (FileData.valid d) fs)

/-- Reconcile-mode branch of `ImageClassifier.save`: load every known
user's dictionary, overwrite every reconciled key in each of them, then
dump them all back. -/
def reconcileSave (fs : FS) (users : List String) (recon : Store) : Except LoadErr FS :=
  (loadAll fs users).map (fun dicts =>
    writeAll (dicts.map (fun ud => (ud.1, applyRecon recon ud.2))) fs)

/-- The store a successful `load_dict` of user `u` returns (default for
a failing load, used only to state `loadAll_ok`). -/
def getStoreD (fs : FS) (u : String) : Store :=
  match load_dict fs (userFileName u) with
  | .ok d => d
  | .error _ => []

theorem loadAll_ok {fs : FS} :
    ∀ {users : List String} {dicts : List (String × Store)},
    loadAll fs users = .ok dicts →
    dicts = users.map (fun u => (u, getStoreD fs u)) ∧
      ∀ u ∈ users, load_dict fs (userFileName u) = .ok (getStoreD fs u) := by
  intro users
  induction users with
  | nil =>
    intro dicts h
    simp [loadAll] at h
    simp [← h]
  | cons u rest ih =>
    intro dicts h
    simp only [loadAll] at h
    cases hl : load_dict fs (userFileName u) with
    | error e => rw [hl] at h; simp [Bind.bind, Except.bind] at h
    | ok d =>
      rw [hl] at h
      cases hr : loadAll fs rest with
      | error e => rw [hr] at h; simp [Bind.bind, Except.bind] at h
      | ok r =>
        rw [hr] at h
        simp [Bind.bind, Except.bind, Pure.pure, Except.pure] at h
        obtain ⟨hrest, hall⟩ := ih hr
        have hgu : getStoreD fs u = d := by simp [getStoreD, hl]
        constructor
        · rw [← h]
          simp [hgu, hrest]
        · intro w hw
          rcases List.mem_cons.mp hw with rfl | hw
          · rw [hl, hgu]
          · exact hall w hw

theorem applyRecon_not_mem {recon : Store} {img : String}
    (h : img ∉ recon.map Prod.fst) :
    ∀ d : Store, dictGet (applyRecon recon d) img = dictGet d img := by
  induction recon with
  | nil => intro d; rfl
  | cons p rest ih =>
    obtain ⟨i, c⟩ := p
    simp only [List.map_cons, List.mem_cons, not_or] at h
    intro d
    rw [applyRecon, ih h.2, dictGet_dictInsert_ne _ _ (fun hh : i = img => h.1 hh.symm)]

theorem applyRecon_mem {recon : Store} {img cat : String}
    (hnd : (recon.map Prod.fst).Nodup) (h : dictGet recon img = some cat) :
    ∀ d : Store, dictGet (applyRecon recon d) img = some cat := by
  induction recon with
  | nil => intro d; simp [dictGet] at h
  | cons p rest ih =>
    obtain ⟨i, c⟩ := p
    simp only [List.map_cons, List.nodup_cons] at hnd
    intro d
    by_cases hi : i = img
    · subst hi
      have hc : c = cat := by simpa [dictGet] using h
      subst hc
      have hni : i ∉ rest.map Prod.fst := hnd.1
      rw [applyRecon, applyRecon_not_mem hni, dictGet_dictInsert_self]
    · simp only [dictGet, if_neg hi] at h
      rw [applyRecon]
      exact ih hnd.2 h _

theorem dictGet_writeAll_untouched {k : String} :
    ∀ (ws : List (String × Store)) (fs : FS), (∀ p ∈ ws, userFileName p.1 ≠ k) →
    dictGet (writeAll ws fs) k = dictGet fs k := by
  intro ws
  induction ws with
  | nil => intro fs _; rfl
  | cons p rest ih =>
    obtain ⟨u, d⟩ := p
    intro fs h
    rw [writeAll, ih _ (fun q hq => h q (List.mem_cons_of_mem _ hq)),
      dictGet_dictInsert_ne _ _ (h (u, d) (List.mem_cons_self _ _))]

theorem dictGet_writeAll_mem (g : String → Store) :
    ∀ (users : List String) (fs : FS) (u : String), u ∈ users →
    dictGet (writeAll (users.map (fun w => (w, g w))) fs) (userFileName u)
      = some (FileData.valid (g u)) := by
  intro users
  induction users with
  | nil => intro fs u hu; simp at hu
  | cons w rest ih =>
    intro fs u hu
    rw [List.map_cons, writeAll]
    by_cases hur : u ∈ rest
    · exact ih _ u hur
    · have huw : u = w := by
        rcases List.mem_cons.mp hu with h | h
        · exact h
        · exact absurd h hur
      subst huw
      rw [dictGet_writeAll_untouched _ _ ?_, dictGet_dictInsert_self]
      intro p hp
      obtain ⟨w', hw', hpw⟩ := List.mem_map.mp hp
      intro hk
      rw [← hpw] at hk
      exact hur (userFileName_inj hk ▸ hw')

/-! ### The full `make_master` pipeline over the directory state -/

/-- The loads `update_all_dict` performs for every user other than the
current one.  Python interleaves them with the folding; since any load
failure aborts the whole operation, they are modelled as one
preliminary pass whose results feed `update_all_dict`. -/
def loadAllExcept (fs : FS) (username : String) :
    List String → Except LoadErr (List (String × Store))
  | [] => .ok []
  | u :: rest =>
    if u = username then loadAllExcept fs username rest
    else do
      let d ← load_dict fs (userFileName u)
      let r ← loadAllExcept fs username rest
      pure ((u, d) :: r)

/-- Model of `ImageClassifier.make_master` over the directory state:
`self.save()` (normal mode) dumps the current user's in-memory store to
its file; `sort_conflicting_imgs` refreshes `self.users`
(`get_all_users` over the directory listing) and `self.allLabeledDict`
(`update_all_dict`, re-reading every other user's file); then the
classification of `make_master_core` runs and, on success, the master
dictionary is dumped to `labeled_master.pkl`.  Returns the new
directory state together with the master mapping. -/
def make_master_run (fs : FS) (username : String) (labeled : Store)
    (image_list : List String) (confirm : Bool) : Except MMErr (FS × Store) :=
  let fs1 := dictInsert (userFileName username) (FileData.valid labeled) fs
  let users := get_all_users (fs1.map Prod.fst)
  match loadAllExcept fs1 username users with
  | .error _ => .error .loadError
  | .ok dicts =>
    let view := update_all_dict false users username labeled
      (fun u => (dictGet dicts u).getD [])
    match make_master_core image_list view confirm with
    | .error e => .error e
    | .ok m => .ok (dictInsert masterFileName (FileData.valid m) fs1, m)

theorem loadAllExcept_congr {fs fs' : FS} {username : String} :
    ∀ users : List String,
    (∀ u ∈ users, u ≠ username →
      dictGet fs (userFileName u) = dictGet fs' (userFileName u)) →
    loadAllExcept fs username users = loadAllExcept fs' username users := by
  intro users
  induction users with
  | nil => intro _; rfl
  | cons u rest ih =>
    intro h
    by_cases hu : u = username
    · simp only [loadAllExcept, if_pos hu]
      exact ih (fun w hw => h w (List.mem_cons_of_mem _ hw))
    · simp only [loadAllExcept, if_neg hu]
      have hld : load_dict fs (userFileName u) = load_dict fs' (userFileName u) := by
        unfold load_dict
        rw [h u (List.mem_cons_self _ _) hu]
      rw [hld, ih (fun w hw hne => h w (List.mem_cons_of_mem _ hw) hne)]

theorem make_master_run_congr (fs fs' : FS) (username : String) (labeled : Store)
    (image_list : List String) (confirm : Bool)
    (hn : get_all_users
        ((dictInsert (userFileName username) (FileData.valid labeled) fs').map Prod.fst)
      = get_all_users
        ((dictInsert (userFileName username) (FileData.valid labeled) fs).map Prod.fst))
    (hl : ∀ u ∈ get_all_users
        ((dictInsert (userFileName username) (FileData.valid labeled) fs).map Prod.fst),
      u ≠ username →
      dictGet (dictInsert (userFileName username) (FileData.valid labeled) fs) (userFileName u)
        = dictGet (dictInsert (userFileName username) (FileData.valid labeled) fs')
            (userFileName u)) :
    (make_master_run fs username labeled image_list confirm).map Prod.snd
      = (make_master_run fs' username labeled image_list confirm).map Prod.snd := by
  have hload : loadAllExcept (dictInsert (userFileName username) (FileData.valid labeled) fs)
        username
        (get_all_users
          ((dictInsert (userFileName username) (FileData.valid labeled) fs).map Prod.fst))
      = loadAllExcept (dictInsert (userFileName username) (FileData.valid labeled) fs')
        username
        (get_all_users
          ((dictInsert (userFileName username) (FileData.valid labeled) fs).map Prod.fst)) :=
    loadAllExcept_congr _ hl
  unfold make_master_run
  dsimp only
  rw [hn, ← hload]
  cases hres : loadAllExcept (dictInsert (userFileName username) (FileData.valid labeled) fs)
      username
      (get_all_users
        ((dictInsert (userFileName username) (FileData.valid labeled) fs).map Prod.fst)) with
  | error e => simp [Except.map]
  | ok dicts =>
    cases hcore : make_master_core image_list
        (update_all_dict false
          (get_all_users
            ((dictInsert (userFileName username) (FileData.valid labeled) fs).map Prod.fst))
          username labeled (fun u => (dictGet dicts u).getD [])) confirm with
    | error e => simp [Except.map, hcore]
    | ok m => simp [Except.map, hcore]

theorem make_master_run_ok_shape {fs : FS} {username : String} {labeled : Store}
    {image_list : List String} {confirm : Bool} {fs2 : FS} {m1 : Store}
    (h : make_master_run fs username labeled image_list confirm = .ok (fs2, m1)) :
    fs2 = dictInsert masterFileName (FileData.valid m1)
      (dictInsert (userFileName username) (FileData.valid labeled) fs) := by
  unfold make_master_run at h
  dsimp only at h
  cases hres : loadAllExcept (dictInsert (userFileName username) (FileData.valid labeled) fs)
      username
      (get_all_users
        ((dictInsert (userFileName username) (FileData.valid labeled) fs).map Prod.fst)) with
  | error e => rw [hres] at h; simp at h
  | ok dicts =>
    rw [hres] at h
    dsimp only at h
    cases hcore : make_master_core image_list
        (update_all_dict false
          (get_all_users
            ((dictInsert (userFileName username) (FileData.valid labeled) fs).map Prod.fst))
          username labeled (fun u => (dictGet dicts u).getD [])) confirm with
    | error e => rw [hcore] at h; simp at h
    | ok m =>
      rw [hcore] at h
      simp at h
      rw [← h.1, h.2]

/-! ### Session lock (`FsLock`) -/

/-- Model of `FsLock.__init__`: the token file is created containing `unlocked`
when absent; otherwise its existing contents are kept. -/
def initLock (t : Option String) : String := t.getD "unlocked"

/-- Model of `FsLock.is_locked`: the token file reads exactly `locked`. -/
def is_locked (tok : String) : Bool := tok = "locked"

/-- Model of `FsLock.acquire`: raise when the token reads `locked`, otherwise
write `locked`. -/
def acquire (tok : String) : Except Unit String :=
  if is_locked tok then .error () else .ok "locked"

/-- Model of `FsLock.release`: unconditionally write `unlocked`. -/
def release (_tok : String) : String := "unlocked"

/-! ### Image-list construction (`initialize_data`) -/

/-- The partition loop of `initialize_data` (and of
`refresh_all_dict`): images in `self.labeled` go to
`labeledByCurrentUser`, other images present in `allLabeledDict` go to
`labeledByOtherUser`, the rest go to `toLabel`, each in traversal
order.  Returns `(labeledByCurrentUser, labeledByOtherUser, toLabel)`. -/
def partition3 (labeled : Store) (allD : AggView) : List String → List String × List String × List String
  | [] => ([], [], [])
  | img :: rest =>
    let p := partition3 labeled allD rest
    if (dictGet labeled img).isSome then (img :: p.1, p.2.1, p.2.2)
    else if (dictGet allD img).isSome then (p.1, img :: p.2.1, p.2.2)
    else (p.1, p.2.1, img :: p.2.2)

/-- The tail of `initialize_data`: `alreadyLabeled = labeledByOtherUser
+ labeledByCurrentUser`, `self.counter = len(alreadyLabeled)`,
`self.image_list = alreadyLabeled + toLabel` with `toLabel` shuffled in
place (`shuffled` models `random.shuffle`).  Returns
`(self.image_list, self.counter)`. -/
def initialize_data_order (list_image_files : List String) (labeled : Store)
    (allD : AggView) (shuffled : List String → List String) : List String × Nat :=
  let p := partition3 labeled allD list_image_files
  let alreadyLabeled := p.2.1 ++ p.1
  (alreadyLabeled ++ shuffled p.2.2, alreadyLabeled.length)

theorem partition3_eq_filters (labeled : Store) (allD : AggView) :
    ∀ files : List String,
    partition3 labeled allD files =
      (files.filter (fun i => (dictGet labeled i).isSome),
       files.filter (fun i => (dictGet labeled i).isNone && (dictGet allD i).isSome),
       files.filter (fun i => (dictGet labeled i).isNone && (dictGet allD i).isNone)) := by
  intro files
  induction files with
  | nil => rfl
  | cons img rest ih =>
    cases h1 : dictGet labeled img with
    | some v => simp [partition3, List.filter_cons, h1, ih]
    | none =>
      cases h2 : dictGet allD img with
      | some e => simp [partition3, List.filter_cons, h1, h2, ih]
      | none => simp [partition3, List.filter_cons, h1, h2, ih]

/-! ### Username selection -/

/-- Username selection in `ImageClassifier.__init__` when a string
username is supplied: sanitize it; when the result is the reserved name
`master`, log an error, ask once for a replacement on stdin
(`promptResponse`), and use the sanitized replacement with no further
check. -/
def set_username (username : String) (promptResponse : String) : String :=
  let san := sanitize_user_name username
  if san = "master" then sanitize_user_name promptResponse else san

/-! ## Claim theorems -/

/-- C1 (amended): provided every category value recorded in the view is
a nonempty string and no image is mapped to an empty entry,
`sort_conflicting_imgs` returns the three ordered sublists of the input
selected by the agreed / disagreed / unlabeled predicates — disagreed
iff the image's entry has two or more distinct category values, agreed
iff it has one or more values all equal, unlabeled iff it has none —
and those predicates are mutually exclusive and exhaustive, so the
three sublists are disjoint and partition the input list.  (Without the
nonemptiness proviso the comparison loop only compares against the
first nonempty value, see the counterexample.) -/
theorem sort_conflicts_partition (ids : List String) (view : AggView)
    (hne : ∀ p ∈ view, p.2 ≠ ([] : List (String × String)))
    (hval : ∀ p ∈ view, ∀ q ∈ p.2, q.2 ≠ "") :
    sort_conflicting_imgs ids view =
      (ids.filter (isAgreedB view), ids.filter (isDisagreedB view),
       ids.filter (isUnlabeledB view)) ∧
    ∀ img : String,
      (isAgreedB view img || isDisagreedB view img || isUnlabeledB view img) = true ∧
      ¬(isAgreedB view img = true ∧ isDisagreedB view img = true) ∧
      ¬(isAgreedB view img = true ∧ isUnlabeledB view img = true) ∧
      ¬(isDisagreedB view img = true ∧ isUnlabeledB view img = true) := by
  constructor
  · have h := sort_go_spec view hne hval ids [] [] [] (by intro i hi; simp at hi)
    simpa [sort_conflicting_imgs] using h
  · intro img
    cases hv : valsOf view img with
    | nil => simp [isAgreedB, isDisagreedB, isUnlabeledB, hasDistinctB, hv]
    | cons v vs =>
      cases hdist : hasDistinctB (v :: vs) with
      | true => simp [isAgreedB, isDisagreedB, isUnlabeledB, hv, hdist]
      | false => simp [isAgreedB, isDisagreedB, isUnlabeledB, hv, hdist]

/-- C1 witness: one agreed, one disagreed and one unlabeled image are
classified into the three expected sublists. -/
theorem sort_conflicts_partition_witness :
    sort_conflicting_imgs ["i1", "i2", "i3"]
      [("i1", [("a", "X"), ("b", "X")]), ("i2", [("a", "X"), ("b", "Y")])]
      = (["i1"], ["i2"], ["i3"]) := by
  have h := (sort_conflicts_partition ["i1", "i2", "i3"]
    [("i1", [("a", "X"), ("b", "X")]), ("i2", [("a", "X"), ("b", "Y")])]
    (by decide) (by decide)).1
  exact h.trans (by decide)

/-- C1 counterexample: the entry of `i` holds the two distinct category
values `""` and `X`, yet the image is classified agreed, not disagreed:
Python's `if not selectedLabel:` treats an empty-string label as "no
selection yet", so the comparison with the second label never fires. -/
theorem sort_conflicts_claim_cex :
    sort_conflicting_imgs ["i"] [("i", [("a", ""), ("b", "X")])] = (["i"], [], []) ∧
    isDisagreedB [("i", [("a", ""), ("b", "X")])] "i" = true := by decide

/-- C5 (amended): the master store never participates in the aggregated
view: `get_all_users` drops every filename containing `master`, the
view is folded only over the detected users, and therefore no entry of
the view rebuilt by `update_all_dict` carries the reserved username. -/
theorem master_excluded_from_view (files : List String) (username : String)
    (labeled : Store) (loadStore : String → Store) (img : String)
    (entry : List (String × String))
    (h : dictGet (update_all_dict false (get_all_users files) username labeled loadStore) img
      = some entry) :
    dictGet entry "master" = none := by
  apply dictGet_eq_none_of_not_mem
  intro hmem
  obtain ⟨q, hq, hq1⟩ := List.mem_map.mp hmem
  have huser := (update_all_dict_inner h hq).1
  rw [hq1] at huser
  exact master_not_in_get_all_users files huser

/-- C5 witness: the amended theorem applied to a directory containing a
master file. -/
theorem master_excluded_from_view_witness :
    dictGet [("alice", "Y")] "master" = none :=
  master_excluded_from_view ["labeled_alice.pkl", "labeled_master.pkl"] "alice"
    [("imgA", "Y")] (fun u => if u = "master" then [("imgA", "X")] else [("imgA", "Y")])
    "imgA" [("alice", "Y")] (by decide)

/-- C5 counterexample: `labeled_master.pkl` maps `imgA ↦ X` on disk, but
the rebuilt view's entry for `imgA` contains no pair keyed by the
reserved name — the master store is excluded from user detection, so
its labels never enter the aggregated view. -/
theorem master_view_cex :
    get_all_users ["labeled_alice.pkl", "labeled_master.pkl"] = ["alice"] ∧
    dictGet (update_all_dict false (get_all_users ["labeled_alice.pkl", "labeled_master.pkl"])
      "alice" [("imgA", "Y")]
      (fun u => if u = "master" then [("imgA", "X")] else [("imgA", "Y")])) "imgA"
      = some [("alice", "Y")] := by decide

/-- C6 (amended): the guarded load of `initialize_data` returns an
empty mapping when the current user's file does not exist and fails
only on a present-but-corrupt file; the underlying `load_dict` (also
called unguarded during aggregation and reconcile-mode saves) itself
raises on a missing file rather than returning an empty mapping. -/
theorem load_missing_file_spec (fs : FS) (p : String) :
    (dictGet fs p = none →
      initialize_data_load fs p = .ok [] ∧ load_dict fs p = .error .fileNotFound) ∧
    (∀ s, dictGet fs p = some (.valid s) →
      initialize_data_load fs p = .ok s ∧ load_dict fs p = .ok s) ∧
    (dictGet fs p = some .corrupt →
      initialize_data_load fs p = .error .unpicklingError) := by
  refine ⟨?_, ?_, ?_⟩
  · intro h
    exact ⟨by simp [initialize_data_load, h], by simp [load_dict, h]⟩
  · intro s h
    exact ⟨by simp [initialize_data_load, h, load_dict], by simp [load_dict, h]⟩
  · intro h
    simp [initialize_data_load, h, load_dict]

/-- C6 witness: missing file yields an empty store through the guarded
load; a corrupt file fails. -/
theorem load_missing_file_spec_witness :
    initialize_data_load [] "labeled_alice.pkl" = .ok [] ∧
    initialize_data_load [("labeled_bob.pkl", FileData.corrupt)] "labeled_bob.pkl"
      = .error .unpicklingError :=
  ⟨((load_missing_file_spec [] "labeled_alice.pkl").1 (by decide)).1,
   (load_missing_file_spec [("labeled_bob.pkl", FileData.corrupt)] "labeled_bob.pkl").2.2
     (by decide)⟩

/-- C6 counterexample: `load_dict` on a missing file raises
(`FileNotFoundError` from `open`) instead of returning an empty
mapping, refuting the claim at the loading interface itself. -/
theorem load_dict_missing_cex :
    load_dict [] "labeled_alice.pkl" = .error .fileNotFound := by decide

/-- C7: `acquire` fails iff the token reads `locked` and otherwise
writes `locked`; `release` unconditionally writes `unlocked` and is
idempotent; after a successful acquire, acquiring again fails while
releasing and then acquiring succeeds. -/
theorem fslock_spec (tok tok1 : String) :
    (is_locked tok = true → acquire tok = .error ()) ∧
    (is_locked tok = false → acquire tok = .ok "locked") ∧
    release tok = "unlocked" ∧
    release (release tok) = release tok ∧
    (acquire tok = .ok tok1 →
      acquire tok1 = .error () ∧ acquire (release tok1) = .ok "locked") := by
  refine ⟨?_, ?_, rfl, rfl, ?_⟩
  · intro h
    simp [acquire, h]
  · intro h
    simp [acquire, h]
  · intro h
    have htok1 : tok1 = "locked" := by
      by_cases hl : is_locked tok
      · simp [acquire, hl] at h
      · simp [acquire, hl] at h
        exact h.symm
    subst htok1
    exact ⟨by simp [acquire, is_locked], by simp [acquire, release, is_locked]⟩

/-- C7 witness: the lock contract evaluated on concrete tokens. -/
theorem fslock_spec_witness :
    acquire "locked" = .error () ∧ acquire "unlocked" = .ok "locked" ∧
    acquire (release "locked") = .ok "locked" := by
  refine ⟨(fslock_spec "locked" "locked").1 (by decide),
    (fslock_spec "unlocked" "locked").2.1 (by decide), ?_⟩
  exact ((fslock_spec "unlocked" "locked").2.2.2.2 ((fslock_spec "unlocked" "locked").2.1
    (by decide))).2

/-- C9: the reserved-name check can be bypassed.  With the supplied
username `master`, the single re-prompt's answer is sanitized but never
re-checked, so answering `master` again makes the session's effective
username exactly the reserved name. -/
theorem set_username_master_bypass :
    set_username "master" "master" = "master" := by decide

/-- C2: a save performed in reconcile mode broadcasts every entry of
the transient reconciliation set into every known user's store and
persists them all: afterwards, reloading any known user's store at a
reconciled image key yields the chosen category. -/
theorem reconcile_commit_unanimous (fs : FS) (users : List String) (recon : Store)
    (fs' : FS) (u img cat : String)
    (hsave : reconcileSave fs users recon = .ok fs')
    (hu : u ∈ users)
    (hnd : (recon.map Prod.fst).Nodup)
    (himg : dictGet recon img = some cat) :
    ∃ d, load_dict fs' (userFileName u) = .ok d ∧ dictGet d img = some cat := by
  unfold reconcileSave at hsave
  cases hload : loadAll fs users with
  | error e => rw [hload] at hsave; simp [Except.map] at hsave
  | ok dicts =>
    rw [hload] at hsave
    simp only [Except.map] at hsave
    obtain ⟨hdicts, hall⟩ := loadAll_ok hload
    subst hdicts
    have hmaps : ((users.map (fun w => (w, getStoreD fs w))).map
          (fun ud => (ud.1, applyRecon recon ud.2)))
        = users.map (fun w => (w, applyRecon recon (getStoreD fs w))) := by
      rw [List.map_map]
      rfl
    rw [hmaps] at hsave
    have hw := dictGet_writeAll_mem (fun w => applyRecon recon (getStoreD fs w)) users fs u hu
    refine ⟨applyRecon recon (getStoreD fs u), ?_, applyRecon_mem hnd himg _⟩
    have hfs' : fs' = writeAll (users.map (fun w => (w, applyRecon recon (getStoreD fs w)))) fs := by
      injection hsave with hh
      exact hh.symm
    rw [hfs']
    unfold load_dict
    rw [hw]

/-- C2 witness: committing `{imgA: Cat}` over alice (who had `Dog`) and
bob makes bob's reloaded store read `Cat` at `imgA`. -/
theorem reconcile_commit_unanimous_witness :
    ∃ d, load_dict
        [("labeled_alice.pkl", FileData.valid [("imgA", "Cat"), ("imgB", "Cat")]),
         ("labeled_bob.pkl", FileData.valid [("imgA", "Cat")])]
        (userFileName "bob") = .ok d ∧ dictGet d "imgA" = some "Cat" :=
  reconcile_commit_unanimous
    [("labeled_alice.pkl", FileData.valid [("imgA", "Dog"), ("imgB", "Cat")]),
     ("labeled_bob.pkl", FileData.valid [("imgA", "Cat")])]
    ["alice", "bob"] [("imgA", "Cat")]
    [("labeled_alice.pkl", FileData.valid [("imgA", "Cat"), ("imgB", "Cat")]),
     ("labeled_bob.pkl", FileData.valid [("imgA", "Cat")])]
    "bob" "imgA" "Cat" (by decide) (by decide) (by decide) (by decide)

/-- C10: a reconcile-mode save only touches reconciled keys: for every
known user and every image absent from the reconciliation set, the
user's persisted store answers exactly as before the save (present
entries keep their value, absent entries stay absent). -/
theorem reconcile_save_frame (fs : FS) (users : List String) (recon : Store)
    (fs' : FS) (u img : String)
    (hsave : reconcileSave fs users recon = .ok fs')
    (hu : u ∈ users)
    (himg : img ∉ recon.map Prod.fst) :
    ∃ d d', load_dict fs (userFileName u) = .ok d ∧
      load_dict fs' (userFileName u) = .ok d' ∧
      dictGet d' img = dictGet d img := by
  unfold reconcileSave at hsave
  cases hload : loadAll fs users with
  | error e => rw [hload] at hsave; simp [Except.map] at hsave
  | ok dicts =>
    rw [hload] at hsave
    simp only [Except.map] at hsave
    obtain ⟨hdicts, hall⟩ := loadAll_ok hload
    subst hdicts
    have hmaps : ((users.map (fun w => (w, getStoreD fs w))).map
          (fun ud => (ud.1, applyRecon recon ud.2)))
        = users.map (fun w => (w, applyRecon recon (getStoreD fs w))) := by
      rw [List.map_map]
      rfl
    rw [hmaps] at hsave
    have hw := dictGet_writeAll_mem (fun w => applyRecon recon (getStoreD fs w)) users fs u hu
    refine ⟨getStoreD fs u, applyRecon recon (getStoreD fs u), hall u hu, ?_,
      applyRecon_not_mem himg _⟩
    have hfs' : fs' = writeAll (users.map (fun w => (w, applyRecon recon (getStoreD fs w)))) fs := by
      injection hsave with hh
      exact hh.symm
    rw [hfs']
    unfold load_dict
    rw [hw]

/-- C10 witness: an image key outside the reconciliation set keeps its
value in alice's persisted store across the reconcile-mode save. -/
theorem reconcile_save_frame_witness :
    ∃ d d', load_dict
        [("labeled_alice.pkl", FileData.valid [("imgA", "Dog"), ("imgB", "Cat")]),
         ("labeled_bob.pkl", FileData.valid [("imgA", "Cat")])]
        (userFileName "alice") = .ok d ∧
      load_dict
        [("labeled_alice.pkl", FileData.valid [("imgA", "Cat"), ("imgB", "Cat")]),
         ("labeled_bob.pkl", FileData.valid [("imgA", "Cat")])]
        (userFileName "alice") = .ok d' ∧
      dictGet d' "imgB" = dictGet d "imgB" :=
  reconcile_save_frame
    [("labeled_alice.pkl", FileData.valid [("imgA", "Dog"), ("imgB", "Cat")]),
     ("labeled_bob.pkl", FileData.valid [("imgA", "Cat")])]
    ["alice", "bob"] [("imgA", "Cat")]
    [("labeled_alice.pkl", FileData.valid [("imgA", "Cat"), ("imgB", "Cat")]),
     ("labeled_bob.pkl", FileData.valid [("imgA", "Cat")])]
    "alice" "imgB" (by decide) (by decide) (by decide)

/-- C3: `make_master` aborts with the reconciliation warning (writing
no master store) whenever the disagreed sublist of the classification
is nonempty; and when the disagreed sublist is empty and the caller
confirms proceeding past unlabeled images, it succeeds with a master
store whose domain covers every image present in the aggregated view,
each mapped to one of that image's recorded category values. -/
theorem make_master_promotion_spec (users : List String) (username : String)
    (labeled : Store) (loadStore : String → Store) (ids : List String) (confirm : Bool) :
    (¬ (sort_conflicting_imgs ids
          (update_all_dict false users username labeled loadStore)).2.1 = [] →
      make_master_core ids (update_all_dict false users username labeled loadStore) confirm
        = .error .needsReconciliation) ∧
    ((sort_conflicting_imgs ids
          (update_all_dict false users username labeled loadStore)).2.1 = [] →
      ∃ m, make_master_core ids (update_all_dict false users username labeled loadStore) true
          = .ok m ∧
        ∀ img entry,
          dictGet (update_all_dict false users username labeled loadStore) img = some entry →
          ∃ v, dictGet m img = some v ∧ v ∈ entry.map Prod.snd) := by
  constructor
  · intro h
    have hc : (!(sort_conflicting_imgs ids
        (update_all_dict false users username labeled loadStore)).2.1.isEmpty) = true := by
      cases hl : (sort_conflicting_imgs ids
          (update_all_dict false users username labeled loadStore)).2.1 with
      | nil => exact absurd hl h
      | cons a l => simp
    unfold make_master_core
    dsimp only
    rw [if_pos hc]
  · intro h
    have hne : ∀ p ∈ update_all_dict false users username labeled loadStore,
        p.2 ≠ ([] : List (String × String)) :=
      fun p hp => (update_all_dict_inv false users username labeled loadStore p hp).1
    obtain ⟨m, hm, hspec⟩ := masterOfView_spec _ hne
    refine ⟨m, ?_, hspec⟩
    unfold make_master_core
    dsimp only
    rw [h]
    simp [hm]

/-- C3 witness: a disagreed view is rejected with the reconciliation
reason; a unanimous view yields a master store covering it. -/
theorem make_master_promotion_spec_witness :
    make_master_core ["i"]
      (update_all_dict false ["a", "b"] "a" [("i", "X")] (fun _ => [("i", "Y")])) false
      = .error .needsReconciliation ∧
    ∃ m, make_master_core ["i"]
        (update_all_dict false ["a", "b"] "a" [("i", "X")] (fun _ => [("i", "X")])) true
        = .ok m ∧
      ∀ img entry, dictGet (update_all_dict false ["a", "b"] "a" [("i", "X")]
          (fun _ => [("i", "X")])) img = some entry →
        ∃ v, dictGet m img = some v ∧ v ∈ entry.map Prod.snd :=
  ⟨(make_master_promotion_spec ["a", "b"] "a" [("i", "X")] (fun _ => [("i", "Y")]) ["i"]
      false).1 (by decide),
   (make_master_promotion_spec ["a", "b"] "a" [("i", "X")] (fun _ => [("i", "X")]) ["i"]
      true).2 (by decide)⟩

/-- C8: on construction the image list is the concatenation of the
images labeled by another user but not by the current one, then the
images labeled by the current user, then the shuffled unlabeled images,
and the play cursor starts at the combined length of the two labeled
segments (the first unlabeled image), not at index 0. -/
theorem image_order_spec (files : List String) (users : List String) (username : String)
    (labeled : Store) (loadStore : String → Store) (shuffled : List String → List String) :
    initialize_data_order files labeled
        (update_all_dict false users username labeled loadStore) shuffled
      = (files.filter (fun i => (dictGet labeled i).isNone &&
            (dictGet (update_all_dict false users username labeled loadStore) i).isSome)
          ++ files.filter (fun i => (dictGet labeled i).isSome)
          ++ shuffled (files.filter (fun i => (dictGet labeled i).isNone &&
              (dictGet (update_all_dict false users username labeled loadStore) i).isNone)),
         (files.filter (fun i => (dictGet labeled i).isNone &&
            (dictGet (update_all_dict false users username labeled loadStore) i).isSome)).length
          + (files.filter (fun i => (dictGet labeled i).isSome)).length) ∧
    (∀ img ∈ files.filter (fun i => (dictGet labeled i).isNone &&
        (dictGet (update_all_dict false users username labeled loadStore) i).isSome),
      dictGet labeled img = none ∧
      ∃ entry u lab, dictGet (update_all_dict false users username labeled loadStore) img
          = some entry ∧ (u, lab) ∈ entry ∧ u ∈ users ∧ u ≠ username) ∧
    (∀ img ∈ files.filter (fun i => (dictGet labeled i).isSome),
      ∃ lab, dictGet labeled img = some lab) ∧
    (∀ img ∈ files.filter (fun i => (dictGet labeled i).isNone &&
        (dictGet (update_all_dict false users username labeled loadStore) i).isNone),
      dictGet labeled img = none ∧
      dictGet (update_all_dict false users username labeled loadStore) img = none) := by
  refine ⟨?_, ?_, ?_, ?_⟩
  · unfold initialize_data_order
    rw [partition3_eq_filters]
    simp [List.length_append]
  · intro img hmem
    have hp := (List.mem_filter.mp hmem).2
    simp only [Bool.and_eq_true, Option.isNone_iff_eq_none] at hp
    obtain ⟨hl, hsome⟩ := hp
    obtain ⟨entry, hv⟩ := Option.isSome_iff_exists.mp hsome
    refine ⟨hl, ?_⟩
    have hene : entry ≠ [] := update_all_dict_entry_ne hv
    match entry, hene with
    | q :: e', _ =>
      have hinner := update_all_dict_inner hv (List.mem_cons_self q e')
      have hqu : q.1 ≠ username := by
        intro he
        have hmemlab := hinner.2 he
        have hsm := mem_dictGet_isSome hmemlab
        rw [hl] at hsm
        simp at hsm
      exact ⟨q :: e', q.1, q.2, hv, List.mem_cons_self q e', hinner.1, hqu⟩
  · intro img hmem
    have hp := (List.mem_filter.mp hmem).2
    exact Option.isSome_iff_exists.mp hp
  · intro img hmem
    have hp := (List.mem_filter.mp hmem).2
    simp only [Bool.and_eq_true, Option.isNone_iff_eq_none] at hp
    exact hp

/-- C8 witness: bob's image comes first, then alice's own, then the
unlabeled one, with the cursor at index 2. -/
theorem image_order_spec_witness :
    initialize_data_order ["i1", "i2", "i3"] [("i2", "X")]
      (update_all_dict false ["alice", "bob"] "alice" [("i2", "X")] (fun _ => [("i1", "Y")]))
      id = (["i1", "i2", "i3"], 2) ∧
    (∃ entry u lab, dictGet (update_all_dict false ["alice", "bob"] "alice" [("i2", "X")]
        (fun _ => [("i1", "Y")])) "i1" = some entry ∧ (u, lab) ∈ entry ∧
      u ∈ ["alice", "bob"] ∧ u ≠ "alice") := by
  have h := image_order_spec ["i1", "i2", "i3"] ["alice", "bob"] "alice" [("i2", "X")]
    (fun _ => [("i1", "Y")]) id
  exact ⟨h.1.trans (by decide), (h.2.1 "i1" (by decide)).2⟩

/-- C4: running master promotion twice in a row, with the same
in-memory labels and no new labels on disk in between, produces the
same master mapping both times: the freshly written
`labeled_master.pkl` is invisible to the second run because
`get_all_users` filters every `master` filename out of the user list,
and the second save rewrites the current user's file unchanged. -/
theorem make_master_idempotent (fs : FS) (username : String) (labeled : Store)
    (ids : List String) (confirm : Bool) (fs2 : FS) (m1 : Store)
    (h : make_master_run fs username labeled ids confirm = .ok (fs2, m1)) :
    ∃ fs3, make_master_run fs2 username labeled ids confirm = .ok (fs3, m1) := by
  have hshape := make_master_run_ok_shape h
  have hufn_mem : userFileName username
      ∈ (dictInsert (userFileName username) (FileData.valid labeled) fs).map Prod.fst :=
    mem_map_fst_dictInsert _ _ _
  have hfs2names : get_all_users (fs2.map Prod.fst)
      = get_all_users
        ((dictInsert (userFileName username) (FileData.valid labeled) fs).map Prod.fst) := by
    rw [hshape]
    by_cases hm : masterFileName
        ∈ (dictInsert (userFileName username) (FileData.valid labeled) fs).map Prod.fst
    · rw [map_fst_dictInsert_mem _ hm]
    · rw [map_fst_dictInsert_not_mem _ hm]
      exact get_all_users_append_filtered _ fileFilter_masterFileName
  have hufn_mem2 : userFileName username ∈ fs2.map Prod.fst := by
    rw [hshape]
    by_cases hm : masterFileName
        ∈ (dictInsert (userFileName username) (FileData.valid labeled) fs).map Prod.fst
    · rw [map_fst_dictInsert_mem _ hm]
      exact hufn_mem
    · rw [map_fst_dictInsert_not_mem _ hm]
      exact List.mem_append_left _ hufn_mem
  have hins2names : (dictInsert (userFileName username) (FileData.valid labeled) fs2).map Prod.fst
      = fs2.map Prod.fst := map_fst_dictInsert_mem _ hufn_mem2
  have hn : get_all_users
        ((dictInsert (userFileName username) (FileData.valid labeled) fs).map Prod.fst)
      = get_all_users
        ((dictInsert (userFileName username) (FileData.valid labeled) fs2).map Prod.fst) := by
    rw [hins2names, hfs2names]
  have hl : ∀ u ∈ get_all_users
        ((dictInsert (userFileName username) (FileData.valid labeled) fs2).map Prod.fst),
      u ≠ username →
      dictGet (dictInsert (userFileName username) (FileData.valid labeled) fs2) (userFileName u)
        = dictGet (dictInsert (userFileName username) (FileData.valid labeled) fs)
            (userFileName u) := by
    intro u hu hne
    have hum : u ≠ "master" := by
      intro he
      subst he
      exact master_not_in_get_all_users _ hu
    have hne1 : userFileName username ≠ userFileName u :=
      fun hh => hne (userFileName_inj hh).symm
    have hne2 : masterFileName ≠ userFileName u := by
      intro hh
      exact hum ((userFileName_eq_master_iff u).mp hh.symm)
    have hL : dictGet (dictInsert (userFileName username) (FileData.valid labeled) fs2)
        (userFileName u) = dictGet fs (userFileName u) := by
      rw [dictGet_dictInsert_ne _ _ hne1, hshape, dictGet_dictInsert_ne _ _ hne2,
        dictGet_dictInsert_ne _ _ hne1]
    have hR : dictGet (dictInsert (userFileName username) (FileData.valid labeled) fs)
        (userFileName u) = dictGet fs (userFileName u) :=
      dictGet_dictInsert_ne _ _ hne1
    rw [hL, hR]
  have hc := make_master_run_congr fs2 fs username labeled ids confirm hn hl
  rw [h] at hc
  cases hrun : make_master_run fs2 username labeled ids confirm with
  | error e =>
    rw [hrun] at hc
    simp [Except.map] at hc
  | ok p =>
    obtain ⟨a, b⟩ := p
    rw [hrun] at hc
    simp [Except.map] at hc
    subst hc
    exact ⟨a, rfl⟩

/-- C4 witness: promoting again over the directory state produced by a
first successful promotion yields the same master mapping. -/
theorem make_master_idempotent_witness :
    ∃ fs3, make_master_run
      [("labeled_alice.pkl", FileData.valid [("img1", "Cat")]),
       ("labeled_master.pkl", FileData.valid [("img1", "Cat")])]
      "alice" [("img1", "Cat")] ["img1"] true = .ok (fs3, [("img1", "Cat")]) :=
  make_master_idempotent [("labeled_alice.pkl", FileData.valid [("img1", "Cat")])]
    "alice" [("img1", "Cat")] ["img1"] true
    [("labeled_alice.pkl", FileData.valid [("img1", "Cat")]),
     ("labeled_master.pkl", FileData.valid [("img1", "Cat")])]
    [("img1", "Cat")] (by decide)

end Simplabel
